import Mathlib

/-!
Verification of the cover-letter generator (src/app.py).

Strings are modelled as lists of characters.  Python's case-insensitive
regular-expression substitution of an escaped (hence literal) pattern is
modelled by a left-to-right scan that replaces every non-overlapping
case-insensitive occurrence of the pattern, exactly as `re.sub` with
`re.IGNORECASE` does on an `re.escape`d pattern.  Python's `str.split(sep)`
and `sep.join` are modelled by `splitSeq` and `joinSeq`.
-/

set_option maxRecDepth 100000

namespace CoverLetterGen

/-- ASCII lowering, modelling Python `str.lower()` on ASCII text. -/
def lower (s : List Char) : List Char := s.map Char.toLower

/-- Case-insensitive containment, modelling Python `pat.lower() in s.lower()`. -/
def occursCI (pat s : List Char) : Prop := lower pat <:+: lower s

instance (pat s : List Char) : Decidable (occursCI pat s) :=
  inferInstanceAs (Decidable (lower pat <:+: lower s))

/-- The replacement text the code inserts: the f-string
`f"<b>{term}</b>"` built from the supplied term. -/
def btag (x : List Char) : List Char := "<b>".data ++ x ++ "</b>".data

/-- Scanner for `re.sub(re.escape(pat), rep, s, flags=re.IGNORECASE)`.
The `Nat` argument counts pattern characters still to be skipped after a
match has been consumed. -/
def rgo (pat rep : List Char) : List Char → Nat → List Char
  | [], _ => []
  | _ :: rest, Nat.succ k => rgo pat rep rest k
  | c :: rest, 0 =>
    if lower pat <+: lower (c :: rest) then rep ++ rgo pat rep rest (pat.length - 1)
    else c :: rgo pat rep rest 0

/-- `re.sub(re.escape(pat), rep, s, flags=re.IGNORECASE)` for a
BACKSLASH-FREE replacement `rep`: replace every non-overlapping
case-insensitive occurrence of the literal `pat`, scanning left to right.
Python uses a replacement string without a backslash literally (template
parsing is skipped), so on that regime this is exact.  When the
replacement does contain a backslash, Python parses it as a template and
may raise `re.error` (for instance on the invalid group reference in
`<b>` ++ `\1` ++ `</b>`); that error path is NOT modelled here, so every
theorem quantifying over company names carries a no-backslash
hypothesis on the name, keeping it inside the faithful regime.  The
keyword replacements are fixed backslash-free catalog phrases, always
inside the regime. -/
def re_sub_ci (pat rep s : List Char) : List Char := rgo pat rep s 0

/-- Scanner counting non-overlapping occurrences of `pat` (case-sensitive). -/
def cgo (pat : List Char) : List Char → Nat → Nat
  | [], _ => 0
  | _ :: rest, Nat.succ k => cgo pat rest k
  | c :: rest, 0 =>
    if pat <+: (c :: rest) then cgo pat rest (pat.length - 1) + 1
    else cgo pat rest 0

/-- Number of non-overlapping occurrences of `pat` in `s`, scanning left
to right (exact, case-sensitive). -/
def countOcc (pat s : List Char) : Nat := cgo pat s 0

/-- Scanner for Python `s.split(sep)`; the `Nat` argument counts separator
characters still to be skipped. -/
def sgo (sep : List Char) : List Char → Nat → List (List Char)
  | [], _ => [[]]
  | _ :: rest, Nat.succ k => sgo sep rest k
  | c :: rest, 0 =>
    if sep <+: (c :: rest) then [] :: sgo sep rest (sep.length - 1)
    else
      match sgo sep rest 0 with
      | [] => [[c]]
      | p :: ps => (c :: p) :: ps

/-- Python `s.split(sep)` for a non-empty separator. -/
def splitSeq (sep s : List Char) : List (List Char) := sgo sep s 0

/-- Python `sep.join(pieces)`. -/
def joinSeq (sep : List Char) : List (List Char) → List Char
  | [] => []
  | [p] => p
  | p :: q :: ps => p ++ sep ++ joinSeq sep (q :: ps)

/-- The KEYWORDS dictionary of src/app.py, categories in declaration
order, phrases in list order. -/
def KEYWORDS : List (String × List String) :=
  [("core_finance",
    ["financial reporting", "month-end closure", "reconciliations",
     "accounting controls", "financial governance", "data accuracy",
     "compliance"]),
   ("operations",
    ["Procure-to-Pay", "Record-to-Report", "transaction flows",
     "process efficiency", "systems exposure"]),
   ("analysis",
    ["MIS", "variance analysis", "financial analysis", "decision support"])]

/-- The keyword phrases in catalog order, as iterated by
`for group in KEYWORDS.values(): for kw in group`. -/
def allKeywords : List (List Char) := ((KEYWORDS.map Prod.snd).flatten).map String.data

/-- The paragraph separator `"\n\n"`. -/
def sepPar : List Char := ['\n', '\n']

/-- The `candidates` list collected for one paragraph: every catalog
keyword occurring case-insensitively in the (company-bolded) paragraph,
in catalog order. -/
def candidates (p : List Char) : List (List Char) :=
  allKeywords.filter fun kw => decide (occursCI kw p)

/-- The keyword pass of `apply_programmatic_bolding` on one paragraph:
substitute each of the first three candidates in turn. -/
def boldKeywordsIn (p : List Char) : List Char :=
  ((candidates p).take 3).foldl (fun b kw => re_sub_ci kw (btag kw) b) p

/-- The company pass on one paragraph: if the flag is still unset and the
company occurs case-insensitively, substitute it and set the flag. -/
def boldCompanyIn (company : List Char) (used : Bool) (p : List Char) : Bool × List Char :=
  if used = false ∧ occursCI company p then (true, re_sub_ci company (btag company) p)
  else (used, p)

/-- One iteration of the paragraph loop of `apply_programmatic_bolding`. -/
def processPara (company : List Char) (used : Bool) (p : List Char) : Bool × List Char :=
  ((boldCompanyIn company used p).1, boldKeywordsIn (boldCompanyIn company used p).2)

/-- The paragraph loop, threading the `used_company` flag. -/
def processParas (company : List Char) : Bool → List (List Char) → List (List Char)
  | _, [] => []
  | used, p :: ps =>
    (processPara company used p).2 :: processParas company (processPara company used p).1 ps

/-- `apply_programmatic_bolding(text, company_name)` of src/app.py. -/
def apply_programmatic_bolding (text company : List Char) : List Char :=
  joinSeq sepPar (processParas company false (splitSeq sepPar text))

/-- Python whitespace, for `str.strip()`. -/
def isPySpace (c : Char) : Bool :=
  (c == ' ') || (c == '\t') || (c == '\n') || (c == '\r') || (c == '\x0b') || (c == '\x0c')

/-- Python `str.strip()`. -/
def pyStrip (s : List Char) : List Char :=
  ((s.dropWhile isPySpace).reverse.dropWhile isPySpace).reverse

/-- `extract_text` of src/app.py: each page yields either no text layer
(`none`, Python `None`) or some text; non-empty page texts are
concatenated with a trailing newline each, and the result is stripped. -/
def extract_text (pages : List (Option (List Char))) : List Char :=
  pyStrip (pages.foldl
    (fun text pt =>
      match pt with
      | some t => if t = [] then text else text ++ t ++ ['\n']
      | none => text)
    [])

/-- The form data dictionary built at submission (name, company, role,
email, mobile, linkedin). -/
structure FormData where
  name : List Char
  company : List Char
  role : List Char
  email : List Char
  mobile : List Char
  linkedin : List Char
deriving DecidableEq

def promptA : String := "\nYou are a senior hiring manager and expert cover-letter writer.\n\nCRITICAL TRUTH RULE (NON-NEGOTIABLE):\n- Do NOT invent experience.\n- Do NOT claim leadership or implementation unless clearly supported by resume.\n- If JD skills are not directly present in resume:\n  - Use derived learning from audit, reconciliations, controls, systems exposure\n  - Or frame as readiness / strong foundation\n- Selling is required, exaggeration is forbidden.\n\nSTRUCTURE & LENGTH:\n- STRICT one A4 page\n- EXACTLY 5 paragraphs\n- Each paragraph ~5 lines\n- No fluff, no generic phrases\n\nPARAGRAPH ROLES:\n1. Why this role at this company (contextual, specific)\n2. Core CA foundation and accounting credibility (resume-backed)\n3. Operational / role alignment using direct or derived experience\n4. Governance, controls, cross-functional maturity\n5. Forward-looking close with ownership tone\n\nTONE:\nCompany type is: "

def promptB : String := "\nAdapt language accordingly (do not mention tone explicitly).\n\nCANDIDATE:\nName: "

def promptC : String := "\nCompany: "

def promptD : String := "\nRole: "

def promptE : String := "\n\nRESUME (ONLY SOURCE OF FACTUAL EXPERIENCE):\n"

def promptF : String := "\n\nJOB DESCRIPTION:\n"

def promptG : String := "\n\nOUTPUT:\nOnly the 5 body paragraphs.\nNo date. No salutation. No signature.\n"

/-- The prompt f-string built inside `generate_cover_letter`. -/
def cover_letter_prompt (resume_text jd_text : List Char) (d : FormData) (tone : List Char) :
    List Char :=
  promptA.data ++ tone ++ promptB.data ++ d.name ++ promptC.data ++ d.company ++
  promptD.data ++ d.role ++ promptE.data ++ resume_text ++ promptF.data ++
  (if jd_text = [] then "Not provided".data else jd_text) ++ promptG.data

/-- `jd_text = extract_text(jd) if jd else ""` (line 241 of src/app.py),
with the extraction function abstracted. -/
def jd_text_from {α : Type} (extract : α → List Char) : Option α → List Char
  | some j => extract j
  | none => []

/-- `generate_cover_letter` of src/app.py: build the prompt, call the
external completion service (`complete`, opaque), strip the response. -/
def generate_cover_letter (complete : List Char → List Char)
    (resume_text jd_text : List Char) (d : FormData) (tone : List Char) : List Char :=
  pyStrip (complete (cover_letter_prompt resume_text jd_text d tone))

/-- Result of a form submission: either refused by the mandatory-field
guard, or a generated (and emphasis-processed) draft stored with the data. -/
inductive SubmitResult where
  | refused : SubmitResult
  | generated : List Char → FormData → SubmitResult
deriving DecidableEq

/-- The submission handler of src/app.py (lines 234 to 256): guard on
resume, name, company, role; otherwise extract, generate, apply the
emphasis pass and store the draft. -/
def handle_submit {α : Type} (extract : α → List Char) (complete : List Char → List Char)
    (resume jd : Option α) (d : FormData) (tone : List Char) : SubmitResult :=
  match resume with
  | none => SubmitResult.refused
  | some r =>
    if d.name = [] ∨ d.company = [] ∨ d.role = [] then SubmitResult.refused
    else
      SubmitResult.generated
        (apply_programmatic_bolding
          (generate_cover_letter complete (extract r) (jd_text_from extract jd) d tone)
          d.company)
        d

/-- Paragraph style used by `create_pdf`: the left-aligned header style or
the justified body style. -/
inductive PStyle where
  | headerStyle : PStyle
  | bodyStyle : PStyle
deriving DecidableEq

/-- The header flowable content of `create_pdf` (name uppercased and
bolded, date line, salutation). -/
def headerText (today : List Char) (d : FormData) : List Char :=
  "<b>".data ++ d.name.map Char.toUpper ++ "</b><br/>".data ++ "Date: ".data ++ today ++
  "<br/><br/>".data ++ "Dear Hiring Manager,<br/><br/>".data

/-- The closing flowable content of `create_pdf` (the triple-quoted
f-string). -/
def closingText (d : FormData) : List Char :=
  "\nSincerely,<br/><br/>\n".data ++ d.name ++ "<br/>\n".data ++ d.mobile ++
  "<br/>\n".data ++ d.email ++ "<br/>\n".data ++ d.linkedin ++ "\n".data

/-- The line-break marker of the generated markup. -/
def brSep : List Char := "<br/>".data

/-- The ordered flowable list built by `create_pdf`: one header block,
one body block per paragraph of the text, one closing block. -/
def create_pdf_elements (today text : List Char) (d : FormData) : List (PStyle × List Char) :=
  ((PStyle.headerStyle, headerText today d) ::
    (splitSeq sepPar text).map (fun p => (PStyle.bodyStyle, p))) ++
  [(PStyle.headerStyle, closingText d)]

/-! Basic lemmas about lowering and case-insensitive containment. -/

theorem lower_append (a b : List Char) : lower (a ++ b) = lower a ++ lower b := by
  simp [lower]

theorem infix_lower {a b : List Char} (h : a <:+: b) : lower a <:+: lower b := by
  obtain ⟨s, t, rfl⟩ := h
  exact ⟨lower s, lower t, by simp [lower]⟩

theorem occursCI_mono {x p q : List Char} (hpq : p <:+: q) (h : occursCI x p) :
    occursCI x q :=
  List.IsInfix.trans h (infix_lower hpq)

theorem occursCI_cons {x p : List Char} {c : Char} (h : occursCI x p) : occursCI x (c :: p) :=
  occursCI_mono ⟨[c], [], by simp⟩ h

theorem occursCI_of_lower_pre {x p : List Char} (h : lower x <+: lower p) : occursCI x p := by
  obtain ⟨t, ht⟩ := h
  exact ⟨[], t, by simpa using ht⟩

/-! Lemmas about the substitution scanner. -/

theorem rgo_append_skip (pat rep : List Char) (xs ys : List Char) :
    rgo pat rep (xs ++ ys) xs.length = rgo pat rep ys 0 := by
  induction xs with
  | nil => rfl
  | cons x xs ih => simpa [rgo] using ih

theorem re_sub_ci_of_not_occurs {pat s : List Char} (rep : List Char) (h : ¬ occursCI pat s) :
    re_sub_ci pat rep s = s := by
  induction s with
  | nil => rfl
  | cons c rest ih =>
    have hpre : ¬ lower pat <+: lower (c :: rest) := fun hp => h (occursCI_of_lower_pre hp)
    have hrest : ¬ occursCI pat rest := fun hx => h (occursCI_cons hx)
    show rgo pat rep (c :: rest) 0 = c :: rest
    rw [rgo, if_neg hpre]
    exact congrArg (c :: ·) (ih hrest)

theorem re_sub_ci_of_lower_eq {pat s : List Char} (rep : List Char) (hne : pat ≠ [])
    (h : lower s = lower pat) : re_sub_ci pat rep s = rep := by
  cases s with
  | nil =>
    cases pat with
    | nil => exact absurd rfl hne
    | cons p ps => simp [lower] at h
  | cons c rest =>
    have hpre : lower pat <+: lower (c :: rest) := by
      rw [h]
    show rgo pat rep (c :: rest) 0 = rep
    rw [rgo, if_pos hpre]
    have hlen : rest.length = pat.length - 1 := by
      have hl := congrArg List.length h
      simp [lower] at hl
      omega
    have hnil : rgo pat rep rest (pat.length - 1) = [] := by
      rw [← hlen]
      have hskip := rgo_append_skip pat rep rest []
      simpa using hskip
    simp [hnil]

/-! Lemmas about the splitting scanner. -/

theorem sgo_append_skip (sep : List Char) (xs ys : List Char) :
    sgo sep (xs ++ ys) xs.length = sgo sep ys 0 := by
  induction xs with
  | nil => rfl
  | cons x xs ih => simpa [sgo] using ih

theorem sgo_ne_nil (sep : List Char) : ∀ (l : List Char) (k : Nat), sgo sep l k ≠ [] := by
  intro l
  induction l with
  | nil => intro k; cases k <;> simp [sgo]
  | cons c rest ih =>
    intro k
    cases k with
    | succ k => simpa [sgo] using ih k
    | zero =>
      rw [sgo]
      by_cases hpre : sep <+: (c :: rest)
      · rw [if_pos hpre]; simp
      · rw [if_neg hpre]
        rcases hrec : sgo sep rest 0 with _ | ⟨p, ps⟩
        · exact absurd hrec (ih 0)
        · simp

theorem joinSeq_sgo (sep : List Char) (hsep : sep ≠ []) :
    ∀ (n : Nat) (l : List Char), l.length ≤ n → joinSeq sep (sgo sep l 0) = l := by
  intro n
  induction n with
  | zero =>
    intro l hl
    have hnil : l = [] := List.eq_nil_of_length_eq_zero (Nat.le_zero.mp hl)
    subst hnil
    rfl
  | succ n ih =>
    intro l hl
    cases l with
    | nil => rfl
    | cons c rest =>
      rw [sgo]
      by_cases hpre : sep <+: (c :: rest)
      · rw [if_pos hpre]
        obtain ⟨t, ht⟩ := hpre
        cases sep with
        | nil => exact absurd rfl hsep
        | cons s0 sep2 =>
          rw [List.cons_append] at ht
          injection ht with hc1 hc2
          have hk : (s0 :: sep2).length - 1 = sep2.length := by simp
          rw [hk]
          have hskip : sgo (s0 :: sep2) rest sep2.length = sgo (s0 :: sep2) t 0 := by
            rw [← hc2]
            exact sgo_append_skip (s0 :: sep2) sep2 t
          rw [hskip]
          rcases hst : sgo (s0 :: sep2) t 0 with _ | ⟨p, ps⟩
          · exact absurd hst (sgo_ne_nil _ _ _)
          · rw [joinSeq]
            have htlen : t.length ≤ n := by
              have hlc : rest.length + 1 ≤ n + 1 := by simpa using hl
              have hsum : sep2.length + t.length = rest.length := by
                rw [← hc2]; simp
              omega
            have hjt : joinSeq (s0 :: sep2) (p :: ps) = t := by
              rw [← hst]
              exact ih t htlen
            rw [hjt]
            simp [hc1, hc2]
      · rw [if_neg hpre]
        have hrl : rest.length ≤ n := by simpa using hl
        have hrest := ih rest hrl
        rcases hrec : sgo sep rest 0 with _ | ⟨p, ps⟩
        · exact absurd hrec (sgo_ne_nil _ _ _)
        · rw [hrec] at hrest
          cases ps with
          | nil =>
            simp only [joinSeq] at hrest ⊢
            rw [hrest]
          | cons q qs =>
            rw [joinSeq]
            rw [joinSeq] at hrest
            rw [← hrest]
            simp

theorem joinSeq_splitSeq (sep : List Char) (hsep : sep ≠ []) (l : List Char) :
    joinSeq sep (splitSeq sep l) = l :=
  joinSeq_sgo sep hsep l.length l le_rfl

theorem sgo_head_pre (sep : List Char) :
    ∀ (l : List Char) (p : List Char) (ps : List (List Char)),
      sgo sep l 0 = p :: ps → p <+: l := by
  intro l
  induction l with
  | nil =>
    intro p ps h
    simp [sgo] at h
    rw [h.1]
  | cons c rest ih =>
    intro p ps h
    rw [sgo] at h
    by_cases hpre : sep <+: (c :: rest)
    · rw [if_pos hpre] at h
      injection h with h1 _
      rw [← h1]
      exact List.nil_prefix
    · rw [if_neg hpre] at h
      rcases hrec : sgo sep rest 0 with _ | ⟨q, qs⟩
      · exact absurd hrec (sgo_ne_nil _ _ _)
      · rw [hrec] at h
        injection h with h1 _
        rw [← h1]
        exact (List.cons_prefix_cons).mpr ⟨rfl, ih q qs hrec⟩

theorem mem_sgo_within (sep : List Char) :
    ∀ (n : Nat) (l : List Char), l.length ≤ n → ∀ p ∈ sgo sep l 0, p <:+: l := by
  intro n
  induction n with
  | zero =>
    intro l hl p hp
    have hnil : l = [] := List.eq_nil_of_length_eq_zero (Nat.le_zero.mp hl)
    subst hnil
    simp [sgo] at hp
    rw [hp]
  | succ n ih =>
    intro l hl p hp
    cases l with
    | nil =>
      simp [sgo] at hp
      rw [hp]
    | cons c rest =>
      rw [sgo] at hp
      by_cases hpre : sep <+: (c :: rest)
      · rw [if_pos hpre] at hp
        obtain ⟨t, ht⟩ := hpre
        cases sep with
        | nil =>
          rw [List.nil_append] at ht
          subst ht
          simp at hp
          rcases hp with hp | hp
          · rw [hp]; exact List.nil_infix
          · have hrl : rest.length ≤ n := by simpa using hl
            exact List.infix_cons (ih rest hrl p hp)
        | cons s0 sep2 =>
          rw [List.cons_append] at ht
          injection ht with hc1 hc2
          have hk : (s0 :: sep2).length - 1 = sep2.length := by simp
          rw [hk] at hp
          have hskip : sgo (s0 :: sep2) rest sep2.length = sgo (s0 :: sep2) t 0 := by
            rw [← hc2]
            exact sgo_append_skip (s0 :: sep2) sep2 t
          rw [hskip] at hp
          simp only [List.mem_cons] at hp
          rcases hp with hp | hp
          · rw [hp]; exact List.nil_infix
          · have htlen : t.length ≤ n := by
              have hlc : rest.length + 1 ≤ n + 1 := by simpa using hl
              have hsum : sep2.length + t.length = rest.length := by
                rw [← hc2]; simp
              omega
            have hpt : p <:+: t := ih t htlen p hp
            have htl : t <:+: c :: rest := by
              refine ⟨s0 :: sep2, [], ?_⟩
              simp [hc1, hc2]
            exact List.IsInfix.trans hpt htl
      · rw [if_neg hpre] at hp
        rcases hrec : sgo sep rest 0 with _ | ⟨q, qs⟩
        · exact absurd hrec (sgo_ne_nil _ _ _)
        · rw [hrec] at hp
          simp only [List.mem_cons] at hp
          have hrl : rest.length ≤ n := by simpa using hl
          rcases hp with hp | hp
          · rw [hp]
            have hq : q <+: rest := sgo_head_pre sep rest q qs hrec
            obtain ⟨t, htq⟩ := hq
            exact ⟨[], t, by simp [htq]⟩
          · have hqr : p <:+: rest := ih rest hrl p (by rw [hrec]; exact List.mem_cons_of_mem _ hp)
            exact List.infix_cons hqr

theorem mem_splitSeq_within {sep l p : List Char} (hp : p ∈ splitSeq sep l) : p <:+: l :=
  mem_sgo_within sep l.length l le_rfl p hp

theorem splitSeq_eq_single {sep l : List Char} (h : ¬ sep <:+: l) : splitSeq sep l = [l] := by
  unfold splitSeq
  induction l with
  | nil => rfl
  | cons c rest ih =>
    rw [sgo]
    have hpre : ¬ sep <+: (c :: rest) := by
      intro hp
      obtain ⟨t, ht⟩ := hp
      exact h ⟨[], t, by simpa using ht⟩
    rw [if_neg hpre]
    have hrest : ¬ sep <:+: rest := fun hx => h (List.infix_cons hx)
    rw [ih hrest]

theorem no_sep_start (c0 : Char) (sepT : List Char) :
    ∀ (a x : List Char), c0 ∉ a → ∀ i, i < a.length → ¬ (c0 :: sepT) <+: ((a ++ x).drop i) := by
  intro a
  induction a with
  | nil =>
    intro x _ i hi
    simp at hi
  | cons ah a2 ih =>
    intro x h i hi
    cases i with
    | zero =>
      intro hp
      obtain ⟨t, ht⟩ := hp
      rw [List.drop_zero, List.cons_append, List.cons_append] at ht
      injection ht with h1 _
      exact h (h1 ▸ List.mem_cons_self _ _)
    | succ i =>
      have h2 : c0 ∉ a2 := fun hx => h (List.mem_cons_of_mem _ hx)
      have := ih x h2 i (Nat.lt_of_succ_lt_succ hi)
      simpa using this

theorem splitSeq_append (sep : List Char) (hsep : sep ≠ []) :
    ∀ (a b : List Char), (∀ i, i < a.length → ¬ sep <+: ((a ++ (sep ++ b)).drop i)) →
      splitSeq sep (a ++ (sep ++ b)) = a :: splitSeq sep b := by
  intro a
  induction a with
  | nil =>
    intro b _
    unfold splitSeq
    cases sep with
    | nil => exact absurd rfl hsep
    | cons s0 sep2 =>
      rw [List.nil_append, List.cons_append, sgo]
      have hpre : (s0 :: sep2) <+: (s0 :: (sep2 ++ b)) := ⟨b, by simp⟩
      rw [if_pos hpre]
      have hk : (s0 :: sep2).length - 1 = sep2.length := by simp
      rw [hk, sgo_append_skip]
  | cons c a2 ih =>
    intro b hnot
    unfold splitSeq at *
    rw [List.cons_append, sgo]
    have h0 : ¬ sep <+: (c :: (a2 ++ (sep ++ b))) := by
      have := hnot 0 (by simp)
      simpa using this
    rw [if_neg h0]
    have ihb := ih b (fun i hi => by
      have := hnot (i + 1) (by simpa using hi)
      simpa using this)
    rw [ihb]

/-! Lemmas about the emphasis pass. -/

theorem candidates_eq_nil {p : List Char} (hK : ∀ kw ∈ allKeywords, ¬ occursCI kw p) :
    candidates p = [] :=
  List.filter_eq_nil_iff.mpr fun kw hkw => by simpa using hK kw hkw

theorem boldKeywordsIn_eq_self {p : List Char} (hK : ∀ kw ∈ allKeywords, ¬ occursCI kw p) :
    boldKeywordsIn p = p := by
  unfold boldKeywordsIn
  rw [candidates_eq_nil hK]
  rfl

theorem processPara_of_no_company {C p : List Char} (used : Bool) (hC : ¬ occursCI C p) :
    processPara C used p = (used, boldKeywordsIn p) := by
  unfold processPara boldCompanyIn
  rw [if_neg (fun hand => hC hand.2)]

theorem processPara_of_no_match {C p : List Char} (used : Bool) (hC : ¬ occursCI C p)
    (hK : ∀ kw ∈ allKeywords, ¬ occursCI kw p) : processPara C used p = (used, p) := by
  rw [processPara_of_no_company used hC, boldKeywordsIn_eq_self hK]

theorem processPara_flag_set {C : List Char} (p : List Char) :
    processPara C true p = (true, boldKeywordsIn p) := by
  unfold processPara boldCompanyIn
  rw [if_neg (fun hand => by simpa using hand.1)]

theorem processPara_company_hit {C p : List Char} (hp : occursCI C p) :
    processPara C false p = (true, boldKeywordsIn (re_sub_ci C (btag C) p)) := by
  unfold processPara boldCompanyIn
  rw [if_pos ⟨rfl, hp⟩]

theorem processParas_of_flag_set {C : List Char} :
    ∀ ps : List (List Char), processParas C true ps = ps.map boldKeywordsIn := by
  intro ps
  induction ps with
  | nil => rfl
  | cons p ps ih => simp [processParas, processPara_flag_set, ih]

theorem processParas_id {C : List Char} (used : Bool) :
    ∀ ps : List (List Char),
      (∀ p ∈ ps, ¬ occursCI C p ∧ ∀ kw ∈ allKeywords, ¬ occursCI kw p) →
      processParas C used ps = ps := by
  intro ps
  induction ps with
  | nil => intro _; rfl
  | cons p ps ih =>
    intro h
    have hp := h p (by simp)
    simp only [processParas, processPara_of_no_match used hp.1 hp.2]
    exact congrArg (p :: ·) (ih fun q hq => h q (List.mem_cons_of_mem _ hq))

theorem processParas_first_company {C : List Char} :
    ∀ (pre : List (List Char)) (p : List Char) (post : List (List Char)),
      (∀ q ∈ pre, ¬ occursCI C q) → occursCI C p →
      processParas C false (pre ++ p :: post) =
        pre.map boldKeywordsIn ++
          boldKeywordsIn (re_sub_ci C (btag C) p) :: post.map boldKeywordsIn := by
  intro pre
  induction pre with
  | nil =>
    intro p post _ hp
    simp only [List.nil_append, List.map_nil, processParas, processPara_company_hit hp]
    rw [processParas_of_flag_set post]
  | cons q pre2 ih =>
    intro p post hpre hp
    have hq : processPara C false q = (false, boldKeywordsIn q) :=
      processPara_of_no_company false (hpre q (by simp))
    simp only [List.cons_append, List.map_cons, processParas, hq]
    exact congrArg (boldKeywordsIn q :: ·)
      (ih p post (fun r hr => hpre r (List.mem_cons_of_mem _ hr)) hp)

/-! Claim theorems. -/

/-- C1 (counterexample): on the one-paragraph text "Acme and Acme" with
company "Acme", the company occurs twice in a single paragraph and the
code wraps BOTH occurrences in bold markers, not exactly one. -/
theorem C1_counterexample :
    (splitSeq sepPar "Acme and Acme".data).length = 1 ∧
    countOcc (lower "Acme".data) (lower "Acme and Acme".data) = 2 ∧
    apply_programmatic_bolding "Acme and Acme".data "Acme".data =
      "<b>Acme</b> and <b>Acme</b>".data ∧
    countOcc (btag "Acme".data)
      (apply_programmatic_bolding "Acme and Acme".data "Acme".data) = 2 := by
  decide

/-- C1 (amended): for a non-empty, backslash-free company name (so the
re.sub replacement template is literal and the call cannot raise), the
company substitution is applied to exactly one paragraph — the first
paragraph (in paragraph order) containing the company name
case-insensitively; every non-overlapping case-insensitive occurrence
inside that paragraph is replaced, and no later paragraph receives any
company substitution (only the keyword pass). -/
theorem C1_company_sub_first_paragraph (C : List Char) (_hC : C ≠ [])
    (_hbs : '\\' ∉ C)
    (pre : List (List Char)) (p : List Char) (post : List (List Char))
    (T : List Char) (hT : splitSeq sepPar T = pre ++ p :: post)
    (hpre : ∀ q ∈ pre, ¬ occursCI C q) (hp : occursCI C p) :
    apply_programmatic_bolding T C =
      joinSeq sepPar
        (pre.map boldKeywordsIn ++
          boldKeywordsIn (re_sub_ci C (btag C) p) :: post.map boldKeywordsIn) := by
  unfold apply_programmatic_bolding
  rw [hT, processParas_first_company pre p post hpre hp]

/-- Witness for C1 (amended) at a concrete three-paragraph input. -/
theorem C1_company_sub_first_paragraph_witness :
    apply_programmatic_bolding "hi\n\nGo Acme go\n\nAcme too".data "Acme".data =
      joinSeq sepPar
        (["hi".data].map boldKeywordsIn ++
          boldKeywordsIn (re_sub_ci "Acme".data (btag "Acme".data) "Go Acme go".data) ::
            ["Acme too".data].map boldKeywordsIn) :=
  C1_company_sub_first_paragraph "Acme".data (by decide) (by decide) ["hi".data]
    "Go Acme go".data ["Acme too".data] "hi\n\nGo Acme go\n\nAcme too".data
    (by decide) (by decide) (by decide)

/-- C2: re-running apply_programmatic_bolding on its own output
double-wraps the already-marked company name: starting from "Acme" the
first run yields "<b>Acme</b>" and the second run yields
"<b><b>Acme</b></b>", a second nested pair of bold markers. -/
theorem C2_rerun_double_wraps :
    apply_programmatic_bolding "Acme".data "Acme".data = "<b>Acme</b>".data ∧
    apply_programmatic_bolding
      (apply_programmatic_bolding "Acme".data "Acme".data) "Acme".data =
      "<b><b>Acme</b></b>".data := by
  decide

/-- C3 (counterexample): in the paragraph "reconciliationsystems exposure"
the keyword "systems exposure" occurs and is among the (at most three)
selected keywords, yet none of its occurrences is wrapped, because the
earlier substitution of "reconciliations" consumed the shared character. -/
theorem C3_counterexample :
    occursCI "systems exposure".data "reconciliationsystems exposure".data ∧
    "systems exposure".data ∈ (candidates "reconciliationsystems exposure".data).take 3 ∧
    apply_programmatic_bolding "reconciliationsystems exposure".data "zzz".data =
      "<b>reconciliations</b>ystems exposure".data ∧
    countOcc (btag "systems exposure".data)
      (apply_programmatic_bolding "reconciliationsystems exposure".data "zzz".data) = 0 := by
  decide

/-- C3 (amended): per paragraph, the selected keywords are the first at
most three catalog keywords (in catalog declaration order, a sublist of
the catalog) that occur case-insensitively in the company-processed
paragraph; a keyword that occurs but is not selected implies three were
selected; the keyword pass substitutes exactly that selection in order,
each substitution replacing the occurrences present at its turn
(occurrences destroyed by an earlier wrap are not re-wrapped). -/
theorem C3_keyword_selection (p : List Char) :
    ((candidates p).take 3).length ≤ 3 ∧
    List.Sublist ((candidates p).take 3) allKeywords ∧
    (∀ kw ∈ (candidates p).take 3, occursCI kw p) ∧
    (∀ kw ∈ allKeywords, occursCI kw p → kw ∉ (candidates p).take 3 →
      ((candidates p).take 3).length = 3) ∧
    boldKeywordsIn p =
      ((candidates p).take 3).foldl (fun b kw => re_sub_ci kw (btag kw) b) p := by
  refine ⟨?_, ?_, ?_, ?_, rfl⟩
  · rw [List.length_take]
    exact min_le_left _ _
  · exact (List.take_sublist _ _).trans (List.filter_sublist _)
  · intro kw hkw
    have hmem := List.mem_of_mem_take hkw
    have := List.of_mem_filter hmem
    simpa using this
  · intro kw hkw hocc hnot
    have hmem : kw ∈ candidates p := List.mem_filter.mpr ⟨hkw, by simpa using hocc⟩
    by_cases hlen : (candidates p).length ≤ 3
    · rw [List.take_of_length_le hlen] at hnot
      exact absurd hmem hnot
    · rw [List.length_take]
      exact Nat.min_eq_left (by omega)

/-- Witness for C3 (amended): a paragraph containing five distinct catalog
keywords has exactly three selected, and the occurring keyword "MIS" is
left out. -/
theorem C3_keyword_selection_witness :
    "MIS".data ∈ allKeywords ∧
    occursCI "MIS".data
      "We value compliance, reconciliations, MIS, variance analysis and financial reporting".data ∧
    "MIS".data ∉
      (candidates
        "We value compliance, reconciliations, MIS, variance analysis and financial reporting".data).take 3 ∧
    ((candidates
        "We value compliance, reconciliations, MIS, variance analysis and financial reporting".data).take 3).length = 3 :=
  ⟨by decide, by decide, by decide,
    (C3_keyword_selection
        "We value compliance, reconciliations, MIS, variance analysis and financial reporting".data).2.2.2.1
      "MIS".data (by decide) (by decide) (by decide)⟩

/-- C4 (counterexample): with company "zzz" absent from the text "MIS",
the output is not the input — the catalog keyword "MIS" is still bolded,
so absence of the company alone does not imply an unchanged result. -/
theorem C4_counterexample :
    ¬ occursCI "zzz".data "MIS".data ∧
    apply_programmatic_bolding "MIS".data "zzz".data = "<b>MIS</b>".data ∧
    "<b>MIS</b>".data ≠ "MIS".data := by
  decide

/-- C4 (amended): if neither the company name nor any catalog keyword
occurs case-insensitively in the text, apply_programmatic_bolding returns
the text unchanged. -/
theorem C4_unchanged_no_matches (T C : List Char) (hC : ¬ occursCI C T)
    (hK : ∀ kw ∈ allKeywords, ¬ occursCI kw T) :
    apply_programmatic_bolding T C = T := by
  unfold apply_programmatic_bolding
  have hall : ∀ p ∈ splitSeq sepPar T,
      ¬ occursCI C p ∧ ∀ kw ∈ allKeywords, ¬ occursCI kw p := by
    intro p hp
    have hinf := mem_splitSeq_within hp
    exact ⟨fun hx => hC (occursCI_mono hinf hx),
      fun kw hkw hx => hK kw hkw (occursCI_mono hinf hx)⟩
  rw [processParas_id false (splitSeq sepPar T) hall]
  exact joinSeq_splitSeq sepPar (by decide) T

/-- Witness for C4 (amended) at a concrete two-paragraph input. -/
theorem C4_unchanged_no_matches_witness :
    ¬ occursCI "Acme".data "hello there\n\nsecond bit".data ∧
    (∀ kw ∈ allKeywords, ¬ occursCI kw "hello there\n\nsecond bit".data) ∧
    apply_programmatic_bolding "hello there\n\nsecond bit".data "Acme".data =
      "hello there\n\nsecond bit".data :=
  ⟨by decide, by decide, C4_unchanged_no_matches _ _ (by decide) (by decide)⟩

/-- C5 (counterexample): on the text "ACME" with supplied company name
"Acme", the bolded span reads "Acme" — the supplied spelling — and not the
original characters "ACME" of the matched span. -/
theorem C5_counterexample :
    apply_programmatic_bolding "ACME".data "Acme".data = "<b>Acme</b>".data ∧
    "<b>Acme</b>".data ≠ "<b>ACME</b>".data := by
  decide

/-- C5 (amended): for a non-empty, backslash-free company name (so the
re.sub replacement template is literal and the call cannot raise), a
matched span is replaced by the SUPPLIED spelling wrapped in bold
markers: a one-paragraph text that is a case-insensitive variant of the
company name becomes exactly the bold-tagged supplied company name, the
original casing being overwritten. -/
theorem C5_supplied_spelling (m C : List Char) (hne : C ≠ []) (_hbs : '\\' ∉ C)
    (hlow : lower m = lower C) (hsep : ¬ sepPar <:+: m)
    (hK : ∀ kw ∈ allKeywords, ¬ occursCI kw (btag C)) :
    apply_programmatic_bolding m C = btag C := by
  unfold apply_programmatic_bolding
  rw [splitSeq_eq_single hsep]
  have hocc : occursCI C m := by
    show lower C <:+: lower m
    rw [hlow]
  simp only [processParas, processPara_company_hit hocc]
  rw [re_sub_ci_of_lower_eq (btag C) hne hlow, boldKeywordsIn_eq_self hK]
  rfl

/-- Witness for C5 (amended) at text "ACME", company "Acme". -/
theorem C5_supplied_spelling_witness :
    lower "ACME".data = lower "Acme".data ∧
    apply_programmatic_bolding "ACME".data "Acme".data = btag "Acme".data :=
  ⟨by decide,
    C5_supplied_spelling "ACME".data "Acme".data (by decide) (by decide) (by decide)
      (by decide) (by decide)⟩

/-- C6 (code bug evidence): "never raises" is false of the code.  With
the backslash-escape company name `\1` occurring in the paragraph
`ab \1 cd`, the company name contains a backslash, the line-64 guard
passes, and the substitution branch is taken — so the program reaches
`re.sub(re.escape(company_name), f-string replacement, paragraph)` whose
UNESCAPED replacement template `<b>` ++ `\1` ++ `</b>` holds the invalid
group reference `\1` (the escaped pattern has no groups), and the real
interpreter raises `re.error: invalid group reference` instead of
returning text.  Only the pattern is escaped, not the replacement. -/
theorem C6_raise_branch_reached :
    '\\' ∈ "\\1".data ∧
    occursCI "\\1".data "ab \\1 cd".data ∧
    (boldCompanyIn "\\1".data false "ab \\1 cd".data).1 = true := by
  decide

/-- Helper: prepending a newline preserves absence of the character. -/
theorem notMem_cons_newline {l : List Char} (hl : '<' ∉ l) : '<' ∉ '\n' :: l := by
  intro hmem
  rcases List.mem_cons.mp hmem with h | h
  · exact absurd h (by decide)
  · exact hl h

/-- Helper: splitting off one `<br/>`-separated piece whose text does not
contain the character the separator starts with. -/
theorem splitSeq_br_step (a b : List Char) (ha : '<' ∉ a) :
    splitSeq brSep (a ++ (brSep ++ b)) = a :: splitSeq brSep b := by
  refine splitSeq_append brSep (by decide) a b ?_
  intro i hi
  have hbr : brSep = '<' :: "br/>".data := by decide
  rw [hbr]
  exact no_sep_start '<' "br/>".data a (brSep ++ b) ha i hi

/-- C7: the assembled document is exactly one header block, one body
block per paragraph of the emphasized text (in input order), then one
closing block; the closing block splits at its line-break markers into
"Sincerely,", a blank line, and the four contact lines name, mobile,
email, professional-network URL in that fixed order — all four present
even when the fields are empty strings. -/
theorem C7_document_structure (today text : List Char) (d : FormData)
    (h1 : '<' ∉ d.name) (h2 : '<' ∉ d.mobile) (h3 : '<' ∉ d.email)
    (h4 : '<' ∉ d.linkedin) :
    (create_pdf_elements today text d).length = (splitSeq sepPar text).length + 2 ∧
    (create_pdf_elements today text d).head? =
      some (PStyle.headerStyle, headerText today d) ∧
    (create_pdf_elements today text d).getLast? =
      some (PStyle.headerStyle, closingText d) ∧
    ((create_pdf_elements today text d).drop 1).dropLast =
      (splitSeq sepPar text).map (fun p => (PStyle.bodyStyle, p)) ∧
    splitSeq brSep (closingText d) =
      ["\nSincerely,".data, [], '\n' :: d.name, '\n' :: d.mobile, '\n' :: d.email,
        '\n' :: (d.linkedin ++ ['\n'])] := by
  refine ⟨?_, ?_, ?_, ?_, ?_⟩
  · simp only [create_pdf_elements, List.cons_append, List.length_cons, List.length_append,
      List.length_map, List.length_nil]
  · simp [create_pdf_elements]
  · unfold create_pdf_elements
    exact List.getLast?_concat _
  · simp only [create_pdf_elements, List.cons_append, List.drop_succ_cons, List.drop_zero,
      List.dropLast_concat]
  · have e : closingText d =
        "\nSincerely,".data ++ (brSep ++ ([] ++ (brSep ++ (('\n' :: d.name) ++
          (brSep ++ (('\n' :: d.mobile) ++ (brSep ++ (('\n' :: d.email) ++
            (brSep ++ ('\n' :: (d.linkedin ++ ['\n']))))))))))) := by
      simp only [closingText, brSep, List.append_assoc, List.cons_append,
        List.singleton_append, List.nil_append]
    rw [e, splitSeq_br_step _ _ (by decide), splitSeq_br_step _ _ (by simp),
      splitSeq_br_step _ _ (notMem_cons_newline h1),
      splitSeq_br_step _ _ (notMem_cons_newline h2),
      splitSeq_br_step _ _ (notMem_cons_newline h3)]
    have hlast : ¬ brSep <:+: ('\n' :: (d.linkedin ++ ['\n'])) := by
      intro hinf
      have hmem : '<' ∈ '\n' :: (d.linkedin ++ ['\n']) := hinf.subset (by decide)
      rcases List.mem_cons.mp hmem with h | h
      · exact absurd h (by decide)
      · rcases List.mem_append.mp h with h | h
        · exact h4 h
        · rcases List.mem_singleton.mp h with h
          exact absurd h (by decide)
    rw [splitSeq_eq_single hlast]

/-- Witness for C7 at a five-paragraph text and a profile with empty
optional contact fields. -/
theorem C7_document_structure_witness :
    (create_pdf_elements "04 March 2025".data "P1\n\nP2\n\nP3\n\nP4\n\nP5".data
        ⟨"Jane Doe".data, "Acme".data, "CA".data, [], [], []⟩).length =
      (splitSeq sepPar "P1\n\nP2\n\nP3\n\nP4\n\nP5".data).length + 2 ∧
    splitSeq brSep
        (closingText ⟨"Jane Doe".data, "Acme".data, "CA".data, [], [], []⟩) =
      ["\nSincerely,".data, [], '\n' :: "Jane Doe".data, '\n' :: ([] : List Char),
        '\n' :: ([] : List Char), '\n' :: (([] : List Char) ++ ['\n'])] :=
  ⟨(C7_document_structure "04 March 2025".data "P1\n\nP2\n\nP3\n\nP4\n\nP5".data
      ⟨"Jane Doe".data, "Acme".data, "CA".data, [], [], []⟩
      (by decide) (by decide) (by decide) (by decide)).1,
    (C7_document_structure "04 March 2025".data "P1\n\nP2\n\nP3\n\nP4\n\nP5".data
      ⟨"Jane Doe".data, "Acme".data, "CA".data, [], [], []⟩
      (by decide) (by decide) (by decide) (by decide)).2.2.2.2⟩

/-- C8: submission is refused exactly when resume, name, company or role
is missing; a refused submission is independent of the generation
service (no call is observable); when all four are present — and the
company name is backslash-free, so the emphasis pass's re.sub
replacement template is literal and cannot raise on any draft — the
pipeline proceeds to extract, generate, apply emphasis and store the
draft. -/
theorem C8_submission_guard {α : Type} (extract : α → List Char)
    (complete : List Char → List Char) (resume jd : Option α) (d : FormData)
    (tone : List Char) :
    (handle_submit extract complete resume jd d tone = SubmitResult.refused ↔
      resume = none ∨ d.name = [] ∨ d.company = [] ∨ d.role = []) ∧
    (∀ complete2 : List Char → List Char,
      handle_submit extract complete resume jd d tone = SubmitResult.refused →
      handle_submit extract complete2 resume jd d tone = SubmitResult.refused) ∧
    (∀ r, resume = some r → d.name ≠ [] → d.company ≠ [] → d.role ≠ [] →
      '\\' ∉ d.company →
      handle_submit extract complete resume jd d tone =
        SubmitResult.generated
          (apply_programmatic_bolding
            (generate_cover_letter complete (extract r) (jd_text_from extract jd) d tone)
            d.company)
          d) := by
  cases resume with
  | none =>
    refine ⟨by simp [handle_submit], fun c2 _ => by simp [handle_submit], ?_⟩
    intro r hr
    exact absurd hr (by simp)
  | some r0 =>
    by_cases hcond : d.name = [] ∨ d.company = [] ∨ d.role = []
    · refine ⟨by simp [handle_submit, hcond], fun c2 _ => by simp [handle_submit, hcond], ?_⟩
      intro r hr hn hc hro
      rcases hcond with h | h | h
      · exact absurd h hn
      · exact absurd h hc
      · exact absurd h hro
    · refine ⟨by simp [handle_submit, hcond], ?_, ?_⟩
      · intro c2 habs
        rw [show handle_submit extract complete (some r0) jd d tone =
            SubmitResult.generated
              (apply_programmatic_bolding
                (generate_cover_letter complete (extract r0) (jd_text_from extract jd) d tone)
                d.company) d from by simp [handle_submit, hcond]] at habs
        exact absurd habs (by simp)
      · intro r hr _ _ _ _
        injection hr with hr
        subst hr
        simp [handle_submit, hcond]

/-- Witness for C8: an empty role is refused; a complete submission
yields the generated, emphasis-processed draft. -/
theorem C8_submission_guard_witness :
    (handle_submit (fun _ : Unit => "resume body".data) (fun _ => "draft body".data)
        (some ()) none ⟨"Jo".data, "Acme".data, [], [], [], []⟩ "tone".data =
      SubmitResult.refused) ∧
    (handle_submit (fun _ : Unit => "resume body".data) (fun _ => "draft body".data)
        (some ()) none ⟨"Jo".data, "Acme".data, "CA".data, [], [], []⟩ "tone".data =
      SubmitResult.generated
        (apply_programmatic_bolding
          (generate_cover_letter (fun _ => "draft body".data) "resume body".data
            (jd_text_from (fun _ : Unit => "resume body".data) none)
            ⟨"Jo".data, "Acme".data, "CA".data, [], [], []⟩ "tone".data)
          "Acme".data)
        ⟨"Jo".data, "Acme".data, "CA".data, [], [], []⟩) :=
  ⟨(C8_submission_guard (fun _ : Unit => "resume body".data) (fun _ => "draft body".data)
      (some ()) none ⟨"Jo".data, "Acme".data, [], [], [], []⟩ "tone".data).1.mpr
      (Or.inr (Or.inr (Or.inr rfl))),
    (C8_submission_guard (fun _ : Unit => "resume body".data) (fun _ => "draft body".data)
      (some ()) none ⟨"Jo".data, "Acme".data, "CA".data, [], [], []⟩ "tone".data).2.2
      () rfl (by decide) (by decide) (by decide) (by decide)⟩

/-- C9: when no job-description document is supplied, the
job-description section of the generation prompt is the literal string
"Not provided". -/
theorem C9_jd_not_provided {α : Type} (extract : α → List Char) (resume_text : List Char)
    (d : FormData) (tone : List Char) :
    jd_text_from extract (none : Option α) = [] ∧
    cover_letter_prompt resume_text (jd_text_from extract (none : Option α)) d tone =
      promptA.data ++ tone ++ promptB.data ++ d.name ++ promptC.data ++ d.company ++
      promptD.data ++ d.role ++ promptE.data ++ resume_text ++ promptF.data ++
      "Not provided".data ++ promptG.data := by
  refine ⟨rfl, ?_⟩
  simp [cover_letter_prompt, jd_text_from]

/-- C10: a supplied job-description document whose extraction yields the
empty string produces exactly the same generation prompt as supplying no
document at all. -/
theorem C10_empty_jd_extraction (pages : List (Option (List Char)))
    (resume_text : List Char) (d : FormData) (tone : List Char)
    (h : extract_text pages = []) :
    cover_letter_prompt resume_text (jd_text_from extract_text (some pages)) d tone =
      cover_letter_prompt resume_text
        (jd_text_from extract_text (none : Option (List (Option (List Char))))) d tone := by
  simp [jd_text_from, h]

/-- Witness for C10: a document of one empty-text page and one page with
no text layer extracts to the empty string, and the two prompts agree. -/
theorem C10_empty_jd_extraction_witness :
    extract_text [some [], none] = [] ∧
    cover_letter_prompt "r".data (jd_text_from extract_text (some [some [], none]))
        ⟨"n".data, "c".data, "ro".data, [], [], []⟩ "t".data =
      cover_letter_prompt "r".data
        (jd_text_from extract_text (none : Option (List (Option (List Char)))))
        ⟨"n".data, "c".data, "ro".data, [], [], []⟩ "t".data :=
  ⟨by decide,
    C10_empty_jd_extraction [some [], none] "r".data
      ⟨"n".data, "c".data, "ro".data, [], [], []⟩ "t".data (by decide)⟩

end CoverLetterGen
